import Mathlib

/-!
Verification development for the attribute-cap-aggregate pipeline of the
`raw-ipa` helper node.

The Rust code is shallowly embedded at the level of *reconstructed* values:
a replicated secret sharing of a value reconstructs to that value, secure
multiplication of shares reconstructs to the product (over GF(2): `&&` /
`&&&`), and share addition and subtraction over GF(2) reconstruct to `xor`
(`^^^` for bit arrays).  A `k`-bit array `BA_k` is embedded as a `Nat`
below `2 ^ k`; bit `i` of the array is `Nat.testBit` at `i`.  Fallible or
panicking code is embedded with `Option` / `Except`.
-/

/-- Numeric value of one GF(2) element (a boolean share reconstructs to 0 or 1). -/
def b2n (b : Bool) : Nat := if b then 1 else 0

/-- Modelled from the spec: `Expand::expand` (ff layer, §4.1) — every bit
position of the resulting `w`-bit array equals the input bit, so the array
reconstructs to all-ones (`2 ^ w - 1`) or to zero. -/
def expand (w : Nat) (b : Bool) : Nat := if b then 2 ^ w - 1 else 0

/-- Modelled from the spec: `if_else(cond, a, b) = b + cond·(a−b)` (§4.2),
taken elementwise on bit arrays over GF(2), where `+`/`−` are `xor` and the
multiplication reconstructs to `and`.  `c` is the (already expanded)
condition array. -/
def if_else (c a b : Nat) : Nat := b ^^^ (c &&& (a ^^^ b))

/-- Modelled from the spec: `or(a, b) = a + b − a·b` over GF(2) (§4.2). -/
def or_gate (a b : Bool) : Bool := xor (xor a b) (a && b)

namespace AdditionLowCom

/-- `bit_adder` from `boolean_ops/addition_low_com.rs`:
`output = x + y + carry`, new carry `= carry + (x + carry)·(y + carry)`,
with GF(2) add = `xor` and secure multiply reconstructing to `and`.
Returns `(output, new_carry)`. -/
def bit_adder (x y carry : Bool) : Bool × Bool :=
  (xor x (xor y carry), xor carry ((xor x carry) && (xor y carry)))

/-- `addition_circuit` from `boolean_ops/addition_low_com.rs`: ripple the
`bit_adder` over the `w` bits of `x` (bit `i` of the result is the
`bit_adder` output at bit `i`; bits of `y` beyond its width read as zero
via `Nat.testBit`).  Returns the `w`-bit result and the final carry. -/
def addition_circuit : Nat → Nat → Nat → Bool → Nat × Bool
  | 0, _, _, carry => (0, carry)
  | w + 1, x, y, carry =>
    let s := bit_adder (x.testBit 0) (y.testBit 0) carry
    let r := addition_circuit w (x / 2) (y / 2) s.2
    (b2n s.1 + 2 * r.1, r.2)

/-- `integer_add` from `boolean_ops/addition_low_com.rs`: non-saturated
addition, the carry out of the top bit is discarded. -/
def integer_add (w x y : Nat) : Nat := (addition_circuit w x y false).1

/-- `integer_sat_add` from `boolean_ops/addition_low_com.rs`: run the
addition circuit, then
`sat = result + carry_array · (carry_array − result)` where `carry_array`
is `Expand` of the final carry — one extra multiplication. -/
def integer_sat_add (w x y : Nat) : Nat :=
  let rc := addition_circuit w x y false
  let carry_array := expand w rc.2
  rc.1 ^^^ (carry_array &&& (carry_array ^^^ rc.1))

end AdditionLowCom

namespace AdditionSequential

/-- Modelled from the spec: `integer_add` of
`boolean_ops/addition_sequential.rs` (not under `src/`), §4.2 — the same
per-bit ripple-carry formula as `addition_low_com::addition_circuit`, but
returning the pair `(sum, carry_out)` used by the attribution circuit. -/
def integer_add (w x y : Nat) : Nat × Bool :=
  AdditionLowCom.addition_circuit w x y false

/-- Modelled from the spec: `integer_sub(x, y) = x + (~y) + 1` using the
adder (§4.2, `comparison_and_subtraction_sequential.rs` is not under
`src/`).  The complement of the low `w` bits of `y` is
`(2 ^ w − 1) ^^^ (y % 2 ^ w)` and the adder is run with carry-in 1. -/
def integer_sub (w x y : Nat) : Nat :=
  (AdditionLowCom.addition_circuit w x ((2 ^ w - 1) ^^^ (y % 2 ^ w)) true).1

/-- Modelled from the spec: `compare_gt(x, y)` returns the share of 1 iff
`x > y`, derived from the final borrow of a subtraction (§4.2); the carry
out of `y + (~x) + 1` is 1 iff `y ≥ x`, so its negation is `x > y`. -/
def compare_gt (w x y : Nat) : Bool :=
  !(AdditionLowCom.addition_circuit w y ((2 ^ w - 1) ^^^ (x % 2 ^ w)) true).2

end AdditionSequential

/-- `PrfShardedIpaInputRow` from `prf_sharding/mod.rs`, with each
secret-shared field embedded as the value it reconstructs to. -/
structure PrfShardedIpaInputRow where
  prf_of_match_key : Nat
  is_trigger_bit : Bool
  breakdown_key : Nat
  trigger_value : Nat
  timestamp : Nat
deriving DecidableEq

/-- `InputsRequiredFromPrevRow` from `prf_sharding/mod.rs` (the six-field
per-user state), embedded at reconstructed-value level. -/
structure InputsRequiredFromPrevRow where
  ever_encountered_a_source_event : Bool
  attributed_breakdown_key_bits : Nat
  saturating_sum : Nat
  is_saturated : Bool
  difference_to_cap : Nat
  source_event_timestamp : Nat
deriving DecidableEq

/-- `CappedAttributionOutputs` from `prf_sharding/mod.rs`. -/
structure CappedAttributionOutputs where
  attributed_breakdown_key_bits : Nat
  capped_attributed_trigger_value : Nat
deriving DecidableEq

/-- `breakdown_key_of_most_recent_source_event` from `prf_sharding/mod.rs`:
`if_else(expand(is_trigger_bit), prev_bk, cur_bk)` at width `bkW`. -/
def breakdown_key_of_most_recent_source_event (bkW : Nat) (is_trigger_bit : Bool)
    (prev_row_breakdown_key_bits cur_row_breakdown_key_bits : Nat) : Nat :=
  if_else (expand bkW is_trigger_bit) prev_row_breakdown_key_bits cur_row_breakdown_key_bits

/-- `timestamp_of_most_recent_source_event` from `prf_sharding/mod.rs`:
when no attribution window is set the previous timestamp is returned
unchanged (saving the multiplications), otherwise the same `if_else`. -/
def timestamp_of_most_recent_source_event (tsW : Nat)
    (attribution_window_seconds : Option Nat) (is_trigger_bit : Bool)
    (prev_row_timestamp_bits cur_row_timestamp_bits : Nat) : Nat :=
  match attribution_window_seconds with
  | none => prev_row_timestamp_bits
  | some _ => if_else (expand tsW is_trigger_bit) prev_row_timestamp_bits cur_row_timestamp_bits

/-- `is_trigger_event_within_attribution_window` from `prf_sharding/mod.rs`:
with a window, compute the time delta with `integer_sub`, compare it with
the truncated window constant via `compare_gt` and negate; without a window
the known-value share of 1. -/
def is_trigger_event_within_attribution_window (tsW : Nat)
    (attribution_window_seconds : Option Nat)
    (trigger_event_timestamp source_event_timestamp : Nat) : Bool :=
  match attribution_window_seconds with
  | some w =>
    !(AdditionSequential.compare_gt tsW
        (AdditionSequential.integer_sub tsW trigger_event_timestamp source_event_timestamp)
        (w % 2 ^ tsW))
  | none => true

/-- `zero_out_trigger_value_unless_attributed` from `prf_sharding/mod.rs`:
`did_trigger_get_attributed = is_trigger · ever_source`; when a window is
set this is further multiplied with the within-window bit (one
multiplication saved otherwise); finally
`if_else(expand(flag), trigger_value, 0)`. -/
def zero_out_trigger_value_unless_attributed (tvW tsW : Nat) (is_trigger_bit : Bool)
    (ever_encountered_a_source_event : Bool) (trigger_value : Nat)
    (attribution_window_seconds : Option Nat)
    (trigger_event_timestamp source_event_timestamp : Nat) : Nat :=
  let did_trigger_get_attributed := is_trigger_bit && ever_encountered_a_source_event
  let is_trigger_within_window := is_trigger_event_within_attribution_window tsW
    attribution_window_seconds trigger_event_timestamp source_event_timestamp
  let zero_out_flag :=
    match attribution_window_seconds with
    | some _ => did_trigger_get_attributed && is_trigger_within_window
    | none => did_trigger_get_attributed
  if_else (expand tvW zero_out_flag) trigger_value 0

/-- `compute_capped_trigger_value` from `prf_sharding/mod.rs`: two chained
`if_else` calls at width `tvW`,
`a = if_else(expand(is_saturated), 0, attributed_tv)` then
`if_else(expand(just_saturated), prev_row_diff_to_cap, a)`. -/
def compute_capped_trigger_value (tvW : Nat) (is_saturated : Bool)
    (is_saturated_and_prev_row_not_saturated : Bool)
    (prev_row_diff_to_cap attributed_trigger_value : Nat) : Nat :=
  let is_saturated_array := expand tvW is_saturated
  let is_saturated_and_prev_row_not_saturated_array :=
    expand tvW is_saturated_and_prev_row_not_saturated
  let attributed_trigger_value_or_zero :=
    if_else is_saturated_array 0 attributed_trigger_value
  if_else is_saturated_and_prev_row_not_saturated_array prev_row_diff_to_cap
    attributed_trigger_value_or_zero

/-- `InputsRequiredFromPrevRow::compute_row_with_previous` from
`prf_sharding/mod.rs`, at reconstructed-value level (contexts and record
ids, which only address communication, are dropped).  Returns the updated
state together with the emitted `CappedAttributionOutputs`. -/
def compute_row_with_previous (bkW tvW tsW ssW : Nat)
    (s : InputsRequiredFromPrevRow) (input_row : PrfShardedIpaInputRow)
    (attribution_window_seconds : Option Nat) :
    InputsRequiredFromPrevRow × CappedAttributionOutputs :=
  let is_source_event := !input_row.is_trigger_bit
  let ever_encountered_a_source_event :=
    or_gate is_source_event s.ever_encountered_a_source_event
  let attributed_breakdown_key_bits :=
    breakdown_key_of_most_recent_source_event bkW input_row.is_trigger_bit
      s.attributed_breakdown_key_bits input_row.breakdown_key
  let source_event_timestamp :=
    timestamp_of_most_recent_source_event tsW attribution_window_seconds
      input_row.is_trigger_bit s.source_event_timestamp input_row.timestamp
  let attributed_trigger_value :=
    zero_out_trigger_value_unless_attributed tvW tsW input_row.is_trigger_bit
      ever_encountered_a_source_event input_row.trigger_value
      attribution_window_seconds input_row.timestamp source_event_timestamp
  let add_result := AdditionSequential.integer_add ssW s.saturating_sum attributed_trigger_value
  let updated_sum := add_result.1
  let overflow_bit := add_result.2
  let overflow_bit_and_prev_row_not_saturated := overflow_bit && !s.is_saturated
  let difference_to_cap := AdditionSequential.integer_sub tvW 0 updated_sum
  let is_saturated := xor s.is_saturated overflow_bit_and_prev_row_not_saturated
  let capped_attributed_trigger_value :=
    compute_capped_trigger_value tvW is_saturated
      overflow_bit_and_prev_row_not_saturated s.difference_to_cap
      attributed_trigger_value
  (⟨ever_encountered_a_source_event, attributed_breakdown_key_bits, updated_sum,
    is_saturated, difference_to_cap, source_event_timestamp⟩,
   ⟨attributed_breakdown_key_bits, capped_attributed_trigger_value⟩)

/-- `initialize_new_device_attribution_variables` from
`prf_sharding/mod.rs`: state from the first row of a user. -/
def initialize_new_device_attribution_variables
    (input_row : PrfShardedIpaInputRow) : InputsRequiredFromPrevRow :=
  ⟨!input_row.is_trigger_bit, input_row.breakdown_key, 0, false, 0, input_row.timestamp⟩

/-- The per-row loop of `evaluate_per_user_attribution_circuit` from
`prf_sharding/mod.rs`: thread the state through `compute_row_with_previous`
and collect one output per row.  Returns the final state and the outputs. -/
def attribution_fold (bkW tvW tsW ssW : Nat) (attribution_window_seconds : Option Nat) :
    InputsRequiredFromPrevRow → List PrfShardedIpaInputRow →
    InputsRequiredFromPrevRow × List CappedAttributionOutputs
  | s, [] => (s, [])
  | s, row :: rest =>
    let step := compute_row_with_previous bkW tvW tsW ssW s row attribution_window_seconds
    let next := attribution_fold bkW tvW tsW ssW attribution_window_seconds step.1 rest
    (next.1, step.2 :: next.2)

/-- `evaluate_per_user_attribution_circuit` from `prf_sharding/mod.rs`:
a single-row user returns no output; otherwise the state is initialized
from the first row and every subsequent row is processed by
`compute_row_with_previous` (the per-depth contexts and record ids only
address communication and are dropped here). -/
def evaluate_per_user_attribution_circuit (bkW tvW tsW ssW : Nat)
    (rows_for_user : List PrfShardedIpaInputRow)
    (attribution_window_seconds : Option Nat) : List CappedAttributionOutputs :=
  match rows_for_user with
  | [] => []
  | first_row :: rest =>
    if rest = [] then []
    else
      (attribution_fold bkW tvW tsW ssW attribution_window_seconds
        (initialize_new_device_attribution_variables first_row) rest).2

/-- The two-line body of the histogram loop in
`compute_histogram_of_users_with_row_count` (`prf_sharding/mod.rs`):
`if histogram.len() <= cur_count { histogram.push(0); }` followed by
`histogram[cur_count] += 1`. -/
def incAt (hist : List Nat) (p : Nat) : List Nat :=
  let h := if hist.length ≤ p then hist ++ [0] else hist
  h.set p (h.getD p 0 + 1)

/-- The `for row in input` loop of
`compute_histogram_of_users_with_row_count` (`prf_sharding/mod.rs`),
carrying `last_prf` and `cur_count`; rows are represented by their
grouping keys. -/
def histLoop (last_prf cur_count : Nat) (hist : List Nat) :
    List Nat → List Nat
  | [] => hist
  | key :: rest =>
    if key == last_prf then histLoop last_prf (cur_count + 1) (incAt hist (cur_count + 1)) rest
    else histLoop key 0 (incAt hist 0) rest

/-- `compute_histogram_of_users_with_row_count` from `prf_sharding/mod.rs`,
specialized to the grouping keys of the rows (`get_grouping_key` values).
`input[0]` on an empty slice panics (out-of-bounds index), embedded as
`none`; otherwise `last_prf` starts at `input[0] + 1` and the loop runs
over the whole input. -/
def compute_histogram_of_users_with_row_count (input : List Nat) : Option (List Nat) :=
  match input with
  | [] => none
  | k0 :: _ => some (histLoop (k0 + 1) 0 [] input)

/-- `set_up_contexts` from `prf_sharding/mod.rs`, at the level of what it
records: for every `row_number ≠ 0` of the histogram it creates the
`Row(row_number)` sub-context with
`set_total_records(histogram[row_number])`; the result lists the pairs
`(row_number, total_records)` in order. -/
def set_up_contexts (histogram : List Nat) : List (Nat × Nat) :=
  ((List.range histogram.length).filter (fun d => d ≠ 0)).map
    (fun d => (d, histogram.getD d 0))

/-- The loop body of the `unfold` closure in `chunk_rows_by_user`
(`prf_sharding/mod.rs`): consume the stream while rows match
`last_row_prf`, pushing onto `current_chunk`; on a key change either yield
the chunk (if it has more than one row) together with the remaining
stream and the row that broke the run, or drop the singleton chunk and
restart from that row; at end of stream yield the chunk unconditionally. -/
def chunk_inner (last_row_prf : Nat) (current_chunk : List PrfShardedIpaInputRow) :
    List PrfShardedIpaInputRow →
    List PrfShardedIpaInputRow × Option (List PrfShardedIpaInputRow × PrfShardedIpaInputRow)
  | [] => (current_chunk, none)
  | row :: rest =>
    if row.prf_of_match_key == last_row_prf then
      chunk_inner last_row_prf (current_chunk ++ [row]) rest
    else if 1 < current_chunk.length then (current_chunk, some (rest, row))
    else chunk_inner row.prf_of_match_key [row] rest

/-- The `unfold` of `chunk_rows_by_user` (`prf_sharding/mod.rs`), written
with explicit fuel so it stays structurally recursive; `chunk_inner`
strictly consumes the stream, so fuel `stream.length + 1` is always
enough (the `0` case is unreachable). -/
def chunk_go : Nat → List PrfShardedIpaInputRow → PrfShardedIpaInputRow → List (List PrfShardedIpaInputRow)
  | 0, _, _ => []
  | fuel + 1, s, last_row =>
    match chunk_inner last_row.prf_of_match_key [last_row] s with
    | (chunk, none) => [chunk]
    | (chunk, some (s', row)) => chunk :: chunk_go fuel s' row

/-- `chunk_rows_by_user` from `prf_sharding/mod.rs`: the caller has already
popped `first_row` off the stream. -/
def chunk_rows_by_user (input_stream : List PrfShardedIpaInputRow)
    (first_row : PrfShardedIpaInputRow) : List (List PrfShardedIpaInputRow) :=
  chunk_go (input_stream.length + 1) input_stream first_row

/-- The per-user record-id snapshot of the scheduler in
`attribute_cap_aggregate` (`prf_sharding/mod.rs` lines 455–472): increment
the first `n` per-depth counters. -/
def increment_first : Nat → List Nat → List Nat
  | 0, counters => counters
  | _ + 1, [] => []
  | n + 1, c :: counters => (c + 1) :: increment_first n counters

/-- The scheduler's record-id assignment (`prf_sharding/mod.rs` lines
455–472): for each user chunk in order, take the snapshot
`record_id_for_row_depth[..num_user_rows]`, then increment those
counters. -/
def assign_record_ids (counters : List Nat) :
    List (List PrfShardedIpaInputRow) → List (List Nat)
  | [] => []
  | chunk :: rest =>
    counters.take chunk.length :: assign_record_ids (increment_first chunk.length counters) rest

/-- The record ids issued under the `Row(d)` step, in submission order: the
depth-`d` entry of each user's snapshot, for the users whose snapshot
reaches depth `d` (`record_id_for_each_depth[i + 1]` in
`evaluate_per_user_attribution_circuit`); counters start at
`vec![0; histogram.len()]`. -/
def ids_issued_at_depth (histLen : Nat) (chunks : List (List PrfShardedIpaInputRow))
    (d : Nat) : List Nat :=
  (assign_record_ids (List.replicate histLen 0) chunks).filterMap (fun ids => ids[d]?)

/-- Modelled from the spec: `bucket::move_single_value_to_bucket` (§4.6,
`prf_sharding/bucket.rs` is not under `src/`) — a vector of length
`num_buckets` whose `bk`-th entry is `tv` and all others are 0. -/
def move_single_value_to_bucket (num_buckets bk tv : Nat) : List Nat :=
  (List.range num_buckets).map (fun i => if i = bk then tv else 0)

/-- `attribute_cap_aggregate` from `prf_sharding/mod.rs`, at
reconstructed-value level over the prime field `Fp_p`.  `histogram[0]` on
an empty histogram and the `usize` underflow of
`input_rows.len() - histogram[0]` both panic (embedded as `none`); an
empty input returns `Ok(vec![])` before any chunking.  Otherwise: chunk by
user, sort chunks by length descending (stably), run the per-user
attribution circuits, modulus-convert each output (the value is unchanged,
reduced mod `p`; `convert_bits` of `modulus_conversion.rs` is not under
`src/` and is modelled from the spec §4.6), move each trigger value to its
breakdown bucket, and fold the one-hot vectors with field addition. -/
def attribute_cap_aggregate (bkW tvW tsW ssW p : Nat)
    (input_rows : List PrfShardedIpaInputRow)
    (attribution_window_seconds : Option Nat) (histogram : List Nat) :
    Option (List Nat) :=
  match histogram.head? with
  | none => none
  | some h0 =>
    if input_rows.length < h0 then none
    else
      match input_rows with
      | [] => some []
      | first_row :: rest =>
        let collected := chunk_rows_by_user rest first_row
        let sorted := collected.mergeSort (fun a b => decide (b.length ≤ a.length))
        let outputs := (sorted.map (fun rows_for_user =>
          evaluate_per_user_attribution_circuit bkW tvW tsW ssW rows_for_user
            attribution_window_seconds)).flatten
        let row_contributions := outputs.map (fun o =>
          move_single_value_to_bucket (2 ^ bkW) o.attributed_breakdown_key_bits
            (o.capped_attributed_trigger_value % p))
        some (row_contributions.foldl
          (fun running_sums contribution =>
            running_sums.zipWith (fun a b => (a + b) % p) contribution)
          (List.replicate (2 ^ bkW) 0))

/-- The error outcomes of `OprfIpaQuery::execute`
(`query/runner/oprf_ipa.rs`); both failure branches in the source are
`panic!`s, which propagate to the query driver, and are embedded as error
values. -/
inductive QueryExecError where
  | configInvalidCap (cap : Nat)
  | encryptedMatchKeysUnsupported
deriving DecidableEq

/-- The `per_user_credit_cap` dispatch of `OprfIpaQuery::execute`
(`query/runner/oprf_ipa.rs` lines 76–86), projected to the bit width of
the saturating-sum type it selects (`BA3`, `BA4`, `BA5`, `BA6`, `BA7`);
the `panic!` for any other cap is embedded as a `configInvalidCap`
error. -/
def OprfIpaQueryExecuteCapDispatch (per_user_credit_cap : Nat) : Except QueryExecError Nat :=
  match per_user_credit_cap with
  | 8 => .ok 3
  | 16 => .ok 4
  | 32 => .ok 5
  | 64 => .ok 6
  | 128 => .ok 7
  | c => .error (.configInvalidCap c)

/-- Grouping key of a chunk (the PRF of its first row). -/
def gkey : List PrfShardedIpaInputRow → Nat
  | [] => 0
  | r :: _ => r.prf_of_match_key

/-- The precondition on the input stream (§3 invariants): rows of one user
are contiguous — the stream is a concatenation of nonempty groups, each
with a single PRF value, adjacent groups having distinct PRF values. -/
def GroupedBy (groups : List (List PrfShardedIpaInputRow)) : Prop :=
  (∀ g ∈ groups, g ≠ []) ∧
  (∀ g ∈ groups, ∀ r ∈ g, r.prf_of_match_key = gkey g) ∧
  List.Chain' (fun g h => gkey g ≠ gkey h) groups

instance (groups : List (List PrfShardedIpaInputRow)) : Decidable (GroupedBy groups) :=
  inferInstanceAs (Decidable
    ((∀ g ∈ groups, g ≠ []) ∧
     (∀ g ∈ groups, ∀ r ∈ g, r.prf_of_match_key = gkey g) ∧
     List.Chain' (fun g h => gkey g ≠ gkey h) groups))

/-- What `chunk_rows_by_user` keeps of a grouped stream: every non-final
group with at least two rows, and the final group unconditionally. -/
def keep_chunks : List (List PrfShardedIpaInputRow) → List (List PrfShardedIpaInputRow)
  | [] => []
  | [g] => [g]
  | g :: gs => (if 1 < g.length then [g] else []) ++ keep_chunks gs

/-- Iterated `incAt`: add one to histogram positions `p, p+1, …, p+n−1`. -/
def addSeg (hist : List Nat) (p : Nat) : Nat → List Nat
  | 0 => hist
  | n + 1 => addSeg (incAt hist p) (p + 1) n

theorem b2n_le_one (b : Bool) : b2n b ≤ 1 := by cases b <;> simp [b2n]

theorem b2n_testBit_zero (x : Nat) : b2n (x.testBit 0) = x % 2 := by
  rw [Nat.testBit_zero]
  rcases Nat.mod_two_eq_zero_or_one x with h | h <;> simp [h, b2n]

theorem bit_adder_val (x y c : Bool) :
    b2n (AdditionLowCom.bit_adder x y c).1 + 2 * b2n (AdditionLowCom.bit_adder x y c).2 =
      b2n x + b2n y + b2n c := by
  cases x <;> cases y <;> cases c <;> rfl

theorem mod_two_pow_succ (x w : Nat) : x % 2 ^ (w + 1) = x % 2 + 2 * (x / 2 % 2 ^ w) := by
  rw [pow_succ, mul_comm, Nat.mod_mul]

theorem addition_circuit_lt (w : Nat) :
    ∀ x y c, (AdditionLowCom.addition_circuit w x y c).1 < 2 ^ w := by
  induction w with
  | zero => intro x y c; simp [AdditionLowCom.addition_circuit]
  | succ w ih =>
    intro x y c
    simp only [AdditionLowCom.addition_circuit]
    have h1 := ih (x / 2) (y / 2) (AdditionLowCom.bit_adder (x.testBit 0) (y.testBit 0) c).2
    have h2 := b2n_le_one (AdditionLowCom.bit_adder (x.testBit 0) (y.testBit 0) c).1
    have h3 : 2 ^ (w + 1) = 2 * 2 ^ w := by rw [pow_succ]; ring
    omega

theorem addition_circuit_val (w : Nat) :
    ∀ x y c, (AdditionLowCom.addition_circuit w x y c).1 +
      2 ^ w * b2n (AdditionLowCom.addition_circuit w x y c).2 =
      x % 2 ^ w + y % 2 ^ w + b2n c := by
  induction w with
  | zero => intro x y c; simp [AdditionLowCom.addition_circuit, Nat.mod_one, b2n]
  | succ w ih =>
    intro x y c
    simp only [AdditionLowCom.addition_circuit]
    have hs := bit_adder_val (x.testBit 0) (y.testBit 0) c
    have hr := ih (x / 2) (y / 2) (AdditionLowCom.bit_adder (x.testBit 0) (y.testBit 0) c).2
    have hx := mod_two_pow_succ x w
    have hy := mod_two_pow_succ y w
    have hbx := b2n_testBit_zero x
    have hby := b2n_testBit_zero y
    have hpow : 2 ^ (w + 1) *
        b2n (AdditionLowCom.addition_circuit w (x / 2) (y / 2)
          (AdditionLowCom.bit_adder (x.testBit 0) (y.testBit 0) c).2).2 =
        2 * (2 ^ w * b2n (AdditionLowCom.addition_circuit w (x / 2) (y / 2)
          (AdditionLowCom.bit_adder (x.testBit 0) (y.testBit 0) c).2).2) := by
      rw [pow_succ]; ring
    omega

theorem nat_xor_cancel_left (a b : Nat) : b ^^^ (a ^^^ b) = a := by
  rw [Nat.xor_comm a b, ← Nat.xor_assoc, Nat.xor_self, Nat.zero_xor]

theorem land_two_pow_sub_one (w z : Nat) (hz : z < 2 ^ w) : (2 ^ w - 1) &&& z = z := by
  apply Nat.eq_of_testBit_eq
  intro i
  rw [Nat.testBit_land, Nat.testBit_two_pow_sub_one]
  by_cases h : i < w
  · simp [h]
  · have hzi : z.testBit i = false :=
      Nat.testBit_lt_two_pow
        (lt_of_lt_of_le hz (Nat.pow_le_pow_right (by norm_num) (le_of_not_lt h)))
    simp [h, hzi]

theorem if_else_zero_cond (a b : Nat) : if_else 0 a b = b := by
  simp [if_else, Nat.zero_and, Nat.xor_zero]

theorem if_else_ones_cond (w a b : Nat) (ha : a < 2 ^ w) (hb : b < 2 ^ w) :
    if_else (2 ^ w - 1) a b = a := by
  unfold if_else
  rw [land_two_pow_sub_one w _ (Nat.xor_lt_two_pow ha hb), nat_xor_cancel_left]

theorem if_else_expand (w : Nat) (c : Bool) (a b : Nat) (ha : a < 2 ^ w) (hb : b < 2 ^ w) :
    if_else (expand w c) a b = if c then a else b := by
  cases c with
  | false => simpa [expand] using if_else_zero_cond a b
  | true => simpa [expand] using if_else_ones_cond w a b ha hb

theorem addition_circuit_spec (w x y : Nat) (hx : x < 2 ^ w) (hy : y < 2 ^ w) :
    (AdditionLowCom.addition_circuit w x y false).1 = (x + y) % 2 ^ w ∧
    ((AdditionLowCom.addition_circuit w x y false).2 = true ↔ 2 ^ w ≤ x + y) := by
  have hval := addition_circuit_val w x y false
  have hlt := addition_circuit_lt w x y false
  rw [Nat.mod_eq_of_lt hx, Nat.mod_eq_of_lt hy] at hval
  cases hc : (AdditionLowCom.addition_circuit w x y false).2 with
  | false =>
    rw [hc] at hval
    simp [b2n] at hval
    have h1 : (AdditionLowCom.addition_circuit w x y false).1 = x + y := by omega
    have h2 : x + y < 2 ^ w := by omega
    refine ⟨by rw [h1, Nat.mod_eq_of_lt h2], ?_⟩
    simp only [Bool.false_eq_true, false_iff]
    omega
  | true =>
    rw [hc] at hval
    simp [b2n] at hval
    have h2 : 2 ^ w ≤ x + y := by omega
    have h1 : (AdditionLowCom.addition_circuit w x y false).1 = (x + y) % 2 ^ w := by
      have := Nat.two_pow_pos w
      have hxy2 : x + y < 2 * 2 ^ w := by omega
      have : (x + y) % 2 ^ w = x + y - 2 ^ w := by
        rw [Nat.mod_eq_sub_mod h2, Nat.mod_eq_of_lt (by omega)]
      omega
    exact ⟨h1, by simp [h2]⟩

theorem compute_capped_trigger_value_cases_eq (w : Nat) (sat just : Bool)
    (pd tv : Nat) (hpd : pd < 2 ^ w) (htv : tv < 2 ^ w) :
    compute_capped_trigger_value w sat just pd tv =
      if just then pd else if sat then 0 else tv := by
  simp only [compute_capped_trigger_value]
  have h0 : (0 : Nat) < 2 ^ w := Nat.two_pow_pos w
  rw [if_else_expand w sat 0 tv h0 htv]
  have hbr : (if sat then 0 else tv) < 2 ^ w := by split <;> assumption
  rw [if_else_expand w just pd _ hpd hbr]

theorem zero_out_trigger_value_lt (tvW tsW : Nat) (it ever : Bool) (tv : Nat)
    (aws : Option Nat) (tt st : Nat) (htv : tv < 2 ^ tvW) :
    zero_out_trigger_value_unless_attributed tvW tsW it ever tv aws tt st < 2 ^ tvW := by
  simp only [zero_out_trigger_value_unless_attributed]
  have h0 : (0 : Nat) < 2 ^ tvW := Nat.two_pow_pos tvW
  rw [if_else_expand tvW _ tv 0 htv h0]
  split <;> assumption

theorem compute_row_with_previous_preserves_saturated (bkW tvW tsW ssW : Nat)
    (s : InputsRequiredFromPrevRow) (row : PrfShardedIpaInputRow)
    (aws : Option Nat) (h : s.is_saturated = true) :
    (compute_row_with_previous bkW tvW tsW ssW s row aws).1.is_saturated = true := by
  simp [compute_row_with_previous, h]

theorem attribution_fold_preserves_saturated (bkW tvW tsW ssW : Nat) (aws : Option Nat) :
    ∀ (rows : List PrfShardedIpaInputRow) (s : InputsRequiredFromPrevRow),
      s.is_saturated = true →
      (attribution_fold bkW tvW tsW ssW aws s rows).1.is_saturated = true := by
  intro rows
  induction rows with
  | nil => intro s h; simpa [attribution_fold] using h
  | cons row rest ih =>
    intro s h
    simp only [attribution_fold]
    exact ih _ (compute_row_with_previous_preserves_saturated bkW tvW tsW ssW s row aws h)

theorem attribution_fold_append (bkW tvW tsW ssW : Nat) (aws : Option Nat) :
    ∀ (rows rows' : List PrfShardedIpaInputRow) (s : InputsRequiredFromPrevRow),
      (attribution_fold bkW tvW tsW ssW aws s (rows ++ rows')).1 =
        (attribution_fold bkW tvW tsW ssW aws
          (attribution_fold bkW tvW tsW ssW aws s rows).1 rows').1 := by
  intro rows
  induction rows with
  | nil => intro rows' s; simp [attribution_fold]
  | cons row rest ih => intro rows' s; simp only [List.cons_append, attribution_fold]; exact ih rows' _

theorem attribution_fold_length (bkW tvW tsW ssW : Nat) (aws : Option Nat) :
    ∀ (rows : List PrfShardedIpaInputRow) (s : InputsRequiredFromPrevRow),
      (attribution_fold bkW tvW tsW ssW aws s rows).2.length = rows.length := by
  intro rows
  induction rows with
  | nil => intro s; simp [attribution_fold]
  | cons row rest ih => intro s; simp [attribution_fold, ih]

theorem incAt_length (h : List Nat) (p : Nat) (hp : p ≤ h.length) :
    (incAt h p).length = max h.length (p + 1) := by
  simp only [incAt]
  by_cases hc : h.length ≤ p
  · rw [if_pos hc]
    simp only [List.length_set, List.length_append, List.length_cons, List.length_nil]
    omega
  · rw [if_neg hc]
    simp only [List.length_set]
    omega

theorem incAt_getD (h : List Nat) (p q : Nat) (hp : p ≤ h.length) :
    (incAt h p).getD q 0 = h.getD q 0 + if q = p then 1 else 0 := by
  simp only [incAt]
  by_cases hc : h.length ≤ p
  · have hpe : p = h.length := le_antisymm hp hc
    subst hpe
    rw [if_pos (le_refl _)]
    have hval : (h ++ [0]).getD h.length 0 = 0 := by
      rw [List.getD_eq_getElem?_getD, List.getElem?_append_right (le_refl _)]
      simp
    rw [hval, List.getD_eq_getElem?_getD, List.getElem?_set]
    by_cases hq : q = h.length
    · subst hq
      rw [if_pos rfl, if_pos (by simp)]
      simp [List.getD_eq_default h 0 (le_refl _)]
    · rw [if_neg (fun hh => hq hh.symm), if_neg hq]
      by_cases hql : q < h.length
      · rw [List.getElem?_append, if_pos hql, ← List.getD_eq_getElem?_getD]
        simp
      · have h1 : h.getD q 0 = 0 := List.getD_eq_default h 0 (by omega)
        have h2 : (h ++ [0])[q]? = none := List.getElem?_eq_none (by simp; omega)
        have h3 : h[q]? = none := List.getElem?_eq_none (by omega)
        simp [h1, h2, h3]
  · rw [if_neg hc]
    rw [List.getD_eq_getElem?_getD, List.getElem?_set]
    by_cases hq : q = p
    · subst hq
      rw [if_pos rfl, if_pos (by omega)]
      simp
    · rw [if_neg (fun hh => hq hh.symm), if_neg hq, ← List.getD_eq_getElem?_getD]
      simp

theorem addSeg_getD : ∀ (n : Nat) (h : List Nat) (p q : Nat), p ≤ h.length →
    (addSeg h p n).getD q 0 = h.getD q 0 + if p ≤ q ∧ q < p + n then 1 else 0 := by
  intro n
  induction n with
  | zero =>
    intro h p q hp
    rw [if_neg (by omega)]
    simp [addSeg]
  | succ n ih =>
    intro h p q hp
    show (addSeg (incAt h p) (p + 1) n).getD q 0 = _
    rw [ih (incAt h p) (p + 1) q (by rw [incAt_length h p hp]; omega)]
    rw [incAt_getD h p q hp]
    split_ifs <;> omega

theorem histLoop_in_group (kk : Nat) : ∀ (tail : List Nat), (∀ k ∈ tail, k = kk) →
    ∀ (cc : Nat) (hist rest : List Nat),
      histLoop kk cc hist (tail ++ rest) =
        histLoop kk (cc + tail.length) (addSeg hist (cc + 1) tail.length) rest := by
  intro tail
  induction tail with
  | nil => intro _ cc hist rest; simp [addSeg]
  | cons k tail ih =>
    intro hall cc hist rest
    have hk : k = kk := hall k (by simp)
    subst hk
    show histLoop k cc hist (k :: (tail ++ rest)) = _
    rw [histLoop, if_pos (by simp)]
    rw [ih (fun x hx => hall x (by simp [hx])) (cc + 1) (incAt hist (cc + 1)) rest]
    show _ = histLoop k (cc + (tail.length + 1)) (addSeg (incAt hist (cc + 1)) (cc + 1 + 1) tail.length) rest
    congr 1
    omega

theorem histLoop_groups :
    ∀ (kgs : List (List Nat)) (lp cc : Nat) (hist : List Nat),
      (∀ g ∈ kgs, g ≠ []) →
      (∀ g ∈ kgs, ∀ k ∈ g, k = g.headD 0) →
      List.Chain' (fun g h => g.headD 0 ≠ h.headD 0) kgs →
      (∀ g, kgs.head? = some g → g.headD 0 ≠ lp) →
      histLoop lp cc hist kgs.flatten =
        kgs.foldl (fun h g => addSeg h 0 g.length) hist := by
  intro kgs
  induction kgs with
  | nil => intro lp cc hist _ _ _ _; simp [histLoop]
  | cons g gs ih =>
    intro lp cc hist hne hconst hchain hhead
    obtain ⟨k, gt, rfl⟩ : ∃ k gt, g = k :: gt := by
      cases g with
      | nil => exact absurd rfl (hne _ (by simp))
      | cons a b => exact ⟨a, b, rfl⟩
    have hflat : ((k :: gt) :: gs).flatten = k :: (gt ++ gs.flatten) := by simp
    rw [hflat]
    have hklp : k ≠ lp := by
      have := hhead (k :: gt) rfl
      simpa using this
    rw [histLoop, if_neg (by simp [hklp])]
    have hall : ∀ x ∈ gt, x = k := by
      intro x hx
      simpa using hconst (k :: gt) (by simp) x (by simp [hx])
    rw [histLoop_in_group k gt hall 0 (incAt hist 0) gs.flatten]
    have haddseg : addSeg (incAt hist 0) (0 + 1) gt.length = addSeg hist 0 (k :: gt).length := rfl
    rw [haddseg]
    have hheadtail : ∀ g', gs.head? = some g' → g'.headD 0 ≠ k := by
      intro g' hg'
      cases gs with
      | nil => simp at hg'
      | cons g2 gs' =>
        have hr : (k :: gt).headD 0 ≠ g2.headD 0 := (List.chain'_cons.mp hchain).1
        simp only [List.head?_cons, Option.some.injEq] at hg'
        subst hg'
        simpa using hr.symm
    rw [ih k (0 + gt.length) (addSeg hist 0 (k :: gt).length)
      (fun x hx => hne x (by simp [hx]))
      (fun x hx => hconst x (by simp [hx]))
      hchain.tail hheadtail]
    rfl

theorem compute_histogram_flatten (kgs : List (List Nat))
    (h1 : ∀ g ∈ kgs, g ≠ [])
    (h2 : ∀ g ∈ kgs, ∀ k ∈ g, k = g.headD 0)
    (h3 : List.Chain' (fun g h => g.headD 0 ≠ h.headD 0) kgs)
    (hne : kgs ≠ []) :
    compute_histogram_of_users_with_row_count kgs.flatten =
      some (kgs.foldl (fun h g => addSeg h 0 g.length) []) := by
  obtain ⟨g, gs, rfl⟩ : ∃ g gs, kgs = g :: gs := by
    cases kgs with
    | nil => exact absurd rfl hne
    | cons a b => exact ⟨a, b, rfl⟩
  obtain ⟨k, gt, rfl⟩ : ∃ k gt, g = k :: gt := by
    cases g with
    | nil => exact absurd rfl (h1 _ (by simp))
    | cons a b => exact ⟨a, b, rfl⟩
  have hflat : ((k :: gt) :: gs).flatten = k :: (gt ++ gs.flatten) := by simp
  rw [hflat]
  simp only [compute_histogram_of_users_with_row_count]
  rw [← hflat]
  rw [histLoop_groups ((k :: gt) :: gs) (k + 1) 0 [] h1 h2 h3
    (by intro g' hg'; simp only [List.head?_cons, Option.some.injEq] at hg'; subst hg'; simp)]

theorem foldl_addSeg_getD (d : Nat) :
    ∀ (kgs : List (List Nat)) (hist : List Nat),
      (kgs.foldl (fun h g => addSeg h 0 g.length) hist).getD d 0 =
        hist.getD d 0 + List.countP (fun g => decide (d < g.length)) kgs := by
  intro kgs
  induction kgs with
  | nil => intro hist; simp
  | cons g gs ih =>
    intro hist
    rw [List.foldl_cons, ih, List.countP_cons]
    rw [addSeg_getD g.length hist 0 d (Nat.zero_le _)]
    have heq : (if 0 ≤ d ∧ d < 0 + g.length then 1 else 0) =
        (if decide (d < g.length) = true then 1 else 0) := by
      by_cases hd : d < g.length
      · rw [if_pos (by omega), if_pos (by simpa using hd)]
      · rw [if_neg (by omega), if_neg (by simpa using hd)]
    omega

theorem chunk_inner_extend (lp : Nat) :
    ∀ (tail : List PrfShardedIpaInputRow), (∀ r ∈ tail, r.prf_of_match_key = lp) →
      ∀ (chunk rest : List PrfShardedIpaInputRow),
        chunk_inner lp chunk (tail ++ rest) = chunk_inner lp (chunk ++ tail) rest := by
  intro tail
  induction tail with
  | nil => intro _ chunk rest; simp
  | cons r t ih =>
    intro hall chunk rest
    have hr : r.prf_of_match_key = lp := hall r (by simp)
    show chunk_inner lp chunk (r :: (t ++ rest)) = _
    simp only [chunk_inner]
    rw [if_pos (by simp [hr])]
    rw [ih (fun x hx => hall x (by simp [hx])) (chunk ++ [r]) rest]
    simp

theorem chunk_inner_some_len :
    ∀ (s : List PrfShardedIpaInputRow) (lp : Nat)
      (chunk c : List PrfShardedIpaInputRow)
      (x : List PrfShardedIpaInputRow × PrfShardedIpaInputRow),
      chunk_inner lp chunk s = (c, some x) → 1 < c.length := by
  intro s
  induction s with
  | nil => intro lp chunk c x h; simp [chunk_inner] at h
  | cons row rest ih =>
    intro lp chunk c x h
    simp only [chunk_inner] at h
    by_cases h1 : (row.prf_of_match_key == lp) = true
    · rw [if_pos h1] at h
      exact ih lp (chunk ++ [row]) c x h
    · rw [if_neg h1] at h
      by_cases h2 : 1 < chunk.length
      · rw [if_pos h2] at h
        rw [Prod.mk.injEq] at h
        exact h.1 ▸ h2
      · rw [if_neg h2] at h
        exact ih _ _ c x h

theorem chunk_go_dropLast :
    ∀ (fuel : Nat) (s : List PrfShardedIpaInputRow) (f : PrfShardedIpaInputRow),
      ∀ c ∈ (chunk_go fuel s f).dropLast, 2 ≤ c.length := by
  intro fuel
  induction fuel with
  | zero => intro s f c hc; simp [chunk_go] at hc
  | succ fuel ih =>
    intro s f c hc
    have hgo : chunk_go (fuel + 1) s f =
        match chunk_inner f.prf_of_match_key [f] s with
        | (chunk, none) => [chunk]
        | (chunk, some (s', row)) => chunk :: chunk_go fuel s' row := rfl
    rcases hinner : chunk_inner f.prf_of_match_key [f] s with ⟨chunk, opt⟩
    cases opt with
    | none =>
      rw [hgo, hinner] at hc
      simp at hc
    | some x =>
      obtain ⟨s', row⟩ := x
      rw [hgo, hinner] at hc
      dsimp only at hc
      cases hrest : chunk_go fuel s' row with
      | nil => rw [hrest] at hc; simp at hc
      | cons c2 l2 =>
        rw [hrest, List.dropLast_cons₂] at hc
        rcases List.mem_cons.mp hc with rfl | hmem
        · exact chunk_inner_some_len s f.prf_of_match_key [f] c (s', row) hinner
        · exact ih s' row c (by rw [hrest]; exact hmem)

theorem GroupedBy_tail (g : List PrfShardedIpaInputRow)
    (gs : List (List PrfShardedIpaInputRow)) (h : GroupedBy (g :: gs)) :
    GroupedBy gs := by
  obtain ⟨h1, h2, h3⟩ := h
  exact ⟨fun x hx => h1 x (by simp [hx]), fun x hx => h2 x (by simp [hx]), h3.tail⟩

theorem chunk_go_grouped :
    ∀ (groups : List (List PrfShardedIpaInputRow)), GroupedBy groups →
      ∀ (first : PrfShardedIpaInputRow) (rest : List PrfShardedIpaInputRow) (fuel : Nat),
        groups.flatten = first :: rest → rest.length < fuel →
        chunk_go fuel rest first = keep_chunks groups := by
  intro groups
  induction groups with
  | nil => intro _ first rest fuel hflat _; simp at hflat
  | cons g gs ih =>
    intro hG first rest fuel hflat hfuel
    obtain ⟨r0, gt, rfl⟩ : ∃ r0 gt, g = r0 :: gt := by
      cases g with
      | nil => exact absurd rfl (hG.1 _ (by simp))
      | cons a b => exact ⟨a, b, rfl⟩
    have hfl : r0 :: (gt ++ gs.flatten) = first :: rest := by simpa using hflat
    have hr0 : r0 = first := by injection hfl
    subst hr0
    have hrest : rest = gt ++ gs.flatten := by injection hfl with _ h2; exact h2.symm
    subst hrest
    obtain ⟨fl, rfl⟩ : ∃ fl, fuel = fl + 1 := by
      cases fuel with
      | zero => omega
      | succ n => exact ⟨n, rfl⟩
    have hgo : chunk_go (fl + 1) (gt ++ gs.flatten) r0 =
        match chunk_inner r0.prf_of_match_key [r0] (gt ++ gs.flatten) with
        | (chunk, none) => [chunk]
        | (chunk, some (s', row)) => chunk :: chunk_go fl s' row := rfl
    have hall : ∀ r ∈ gt, r.prf_of_match_key = r0.prf_of_match_key := by
      intro r hr
      simpa [gkey] using hG.2.1 (r0 :: gt) (by simp) r (by simp [hr])
    have hext := chunk_inner_extend r0.prf_of_match_key gt hall [r0] gs.flatten
    cases gs with
    | nil =>
      have hinner : chunk_inner r0.prf_of_match_key [r0] (gt ++ List.flatten []) =
          (r0 :: gt, none) := by
        rw [hext]
        simp [chunk_inner]
      rw [hgo, hinner]
      simp [keep_chunks]
    | cons g2 gs' =>
      obtain ⟨r2, g2t, rfl⟩ : ∃ r2 g2t, g2 = r2 :: g2t := by
        cases g2 with
        | nil => exact absurd rfl (hG.1 _ (by simp))
        | cons a b => exact ⟨a, b, rfl⟩
      have hflat2 : ((r2 :: g2t) :: gs').flatten = r2 :: (g2t ++ gs'.flatten) := by simp
      have hne2 : r2.prf_of_match_key ≠ r0.prf_of_match_key := by
        have hcc := (List.chain'_cons.mp hG.2.2).1
        simpa [gkey] using fun he => hcc (by simp [gkey, he])
      have hinner : chunk_inner r0.prf_of_match_key [r0] (gt ++ ((r2 :: g2t) :: gs').flatten) =
          chunk_inner r0.prf_of_match_key (r0 :: gt) (r2 :: (g2t ++ gs'.flatten)) := by
        rw [hext, hflat2]
        rfl
      have hstep : chunk_inner r0.prf_of_match_key (r0 :: gt) (r2 :: (g2t ++ gs'.flatten)) =
          if 1 < (r0 :: gt).length then ((r0 :: gt), some ((g2t ++ gs'.flatten), r2))
          else chunk_inner r2.prf_of_match_key [r2] (g2t ++ gs'.flatten) := by
        simp only [chunk_inner]
        rw [if_neg (by simp [hne2])]
      have hXlen : (gt ++ ((r2 :: g2t) :: gs').flatten).length =
          gt.length + ((g2t ++ gs'.flatten).length + 1) := by
        rw [hflat2]
        simp [List.length_append]
      have hGtail := GroupedBy_tail _ _ hG
      by_cases hlen : 1 < (r0 :: gt).length
      · rw [hgo, hinner, hstep, if_pos hlen]
        dsimp only
        rw [ih hGtail r2 (g2t ++ gs'.flatten) fl hflat2 (by omega)]
        simp only [keep_chunks]
        rw [if_pos hlen]
        simp
      · rw [hgo, hinner, hstep, if_neg hlen]
        have hgo2 : chunk_go (fl + 1) (g2t ++ gs'.flatten) r2 =
            match chunk_inner r2.prf_of_match_key [r2] (g2t ++ gs'.flatten) with
            | (chunk, none) => [chunk]
            | (chunk, some (s', row)) => chunk :: chunk_go fl s' row := rfl
        rw [← hgo2, ih hGtail r2 (g2t ++ gs'.flatten) (fl + 1) hflat2 (by omega)]
        simp only [keep_chunks]
        rw [if_neg hlen]
        simp

theorem keep_chunks_countP (d : Nat) (hd : 1 ≤ d) :
    ∀ (groups : List (List PrfShardedIpaInputRow)),
      List.countP (fun c => decide (d < c.length)) (keep_chunks groups) =
        List.countP (fun g => decide (d < g.length)) groups := by
  intro groups
  induction groups with
  | nil => simp [keep_chunks]
  | cons g gs ih =>
    cases gs with
    | nil => simp [keep_chunks]
    | cons g2 gs' =>
      show List.countP _ ((if 1 < g.length then [g] else []) ++ keep_chunks (g2 :: gs')) = _
      rw [List.countP_append, ih]
      by_cases hg : 1 < g.length
      · rw [if_pos hg]
        simp only [List.countP_cons, List.countP_nil]
        omega
      · rw [if_neg hg]
        have hfalse : decide (d < g.length) = false := by
          simp only [decide_eq_false_iff_not]
          omega
        simp only [List.countP_nil, List.countP_cons, hfalse, Bool.false_eq_true, if_false]
        omega

theorem chunk_rows_by_user_grouped (groups : List (List PrfShardedIpaInputRow))
    (hG : GroupedBy groups) (first : PrfShardedIpaInputRow)
    (rest : List PrfShardedIpaInputRow) (hflat : groups.flatten = first :: rest) :
    chunk_rows_by_user rest first = keep_chunks groups := by
  exact chunk_go_grouped groups hG first rest (rest.length + 1) hflat (by omega)

theorem increment_first_getElem? :
    ∀ (n : Nat) (cs : List Nat) (d : Nat),
      (increment_first n cs)[d]? = if d < n then (cs[d]?).map (· + 1) else cs[d]? := by
  intro n
  induction n with
  | zero => intro cs d; simp [increment_first]
  | succ n ih =>
    intro cs d
    cases cs with
    | nil => simp [increment_first]
    | cons c cs =>
      cases d with
      | zero => simp [increment_first]
      | succ q =>
        have hstep : (increment_first (n + 1) (c :: cs))[q + 1]? = (increment_first n cs)[q]? := by
          simp [increment_first]
        rw [hstep, ih cs q]
        simp only [List.getElem?_cons_succ]
        by_cases hq : q < n
        · rw [if_pos hq, if_pos (by omega)]
        · rw [if_neg hq, if_neg (by omega)]

theorem assign_filterMap :
    ∀ (chunks : List (List PrfShardedIpaInputRow)) (counters : List Nat) (d c0 : Nat),
      counters[d]? = some c0 →
      (assign_record_ids counters chunks).filterMap (fun ids => ids[d]?) =
        List.range' c0 (List.countP (fun ch => decide (d < ch.length)) chunks) := by
  intro chunks
  induction chunks with
  | nil => intro counters d c0 _; simp [assign_record_ids]
  | cons ch rest ih =>
    intro counters d c0 hc
    show List.filterMap _ (counters.take ch.length :: assign_record_ids (increment_first ch.length counters) rest) = _
    rw [List.filterMap_cons]
    by_cases hd : d < ch.length
    · have htake : (counters.take ch.length)[d]? = some c0 := by
        rw [List.getElem?_take, if_pos hd, hc]
      have hcounters : (increment_first ch.length counters)[d]? = some (c0 + 1) := by
        rw [increment_first_getElem?, if_pos hd, hc]
        rfl
      rw [htake]
      rw [ih (increment_first ch.length counters) d (c0 + 1) hcounters]
      rw [List.countP_cons]
      have : decide (d < ch.length) = true := by simpa using hd
      rw [this]
      rw [show (List.countP (fun ch => decide (d < ch.length)) rest + if true = true then 1 else 0) =
        List.countP (fun ch => decide (d < ch.length)) rest + 1 by simp]
      rw [List.range'_succ]
    · have htake : (counters.take ch.length)[d]? = none := by
        rw [List.getElem?_take, if_neg hd]
      have hcounters : (increment_first ch.length counters)[d]? = some c0 := by
        rw [increment_first_getElem?, if_neg hd, hc]
      rw [htake]
      rw [ih (increment_first ch.length counters) d c0 hcounters]
      rw [List.countP_cons]
      have : decide (d < ch.length) = false := by simpa using hd
      simp [this]

theorem ids_issued_range (histLen d : Nat) (chunks : List (List PrfShardedIpaInputRow))
    (hd : d < histLen) :
    ids_issued_at_depth histLen chunks d =
      List.range (List.countP (fun ch => decide (d < ch.length)) chunks) := by
  unfold ids_issued_at_depth
  rw [assign_filterMap chunks _ d 0 (by simp [List.getElem?_replicate, hd])]
  rw [List.range_eq_range']

theorem set_up_contexts_mem (H : List Nat) (dn : Nat × Nat) (h : dn ∈ set_up_contexts H) :
    1 ≤ dn.1 ∧ dn.1 < H.length ∧ dn.2 = H.getD dn.1 0 := by
  simp only [set_up_contexts, List.mem_map, List.mem_filter, List.mem_range] at h
  obtain ⟨d, ⟨hdlt, hdne⟩, hdn⟩ := h
  subst hdn
  have hd0 : d ≠ 0 := by simpa using hdne
  refine ⟨?_, ?_, ?_⟩
  · show 1 ≤ d
    omega
  · exact hdlt
  · rfl

theorem mapped_headD_gkey (g : List PrfShardedIpaInputRow) :
    ((g.map (fun r => r.prf_of_match_key)).headD 0) = gkey g := by
  cases g <;> simp [gkey]

theorem compute_histogram_grouped (groups : List (List PrfShardedIpaInputRow))
    (hG : GroupedBy groups) (hne : groups ≠ []) (H : List Nat)
    (hH : compute_histogram_of_users_with_row_count
        ((groups.flatten).map (fun r => r.prf_of_match_key)) = some H) :
    ∀ d, H.getD d 0 = List.countP (fun g => decide (d < g.length)) groups := by
  set kgs := groups.map (List.map (fun r => r.prf_of_match_key)) with hkgs
  have hflat : (groups.flatten).map (fun r => r.prf_of_match_key) = kgs.flatten :=
    List.map_flatten _ _
  have h1 : ∀ g ∈ kgs, g ≠ [] := by
    intro g hg
    obtain ⟨g0, hg0, rfl⟩ := List.mem_map.mp hg
    have := hG.1 g0 hg0
    simpa using this
  have h2 : ∀ g ∈ kgs, ∀ k ∈ g, k = g.headD 0 := by
    intro g hg k hk
    obtain ⟨g0, hg0, rfl⟩ := List.mem_map.mp hg
    obtain ⟨r, hr, rfl⟩ := List.mem_map.mp hk
    rw [mapped_headD_gkey]
    exact hG.2.1 g0 hg0 r hr
  have h3 : List.Chain' (fun g h => g.headD 0 ≠ h.headD 0) kgs := by
    rw [hkgs, List.chain'_map]
    refine List.Chain'.imp ?_ hG.2.2
    intro a b hab
    rw [mapped_headD_gkey, mapped_headD_gkey]
    exact hab
  have hnek : kgs ≠ [] := by
    rw [hkgs]
    simpa using hne
  have hchar := compute_histogram_flatten kgs h1 h2 h3 hnek
  rw [hflat, hchar] at hH
  have hHfold : H = kgs.foldl (fun h g => addSeg h 0 g.length) [] :=
    (Option.some.inj hH).symm
  intro d
  rw [hHfold, foldl_addSeg_getD]
  rw [hkgs, List.countP_map]
  have hgd : ([] : List Nat).getD d 0 = 0 := rfl
  rw [hgd, Nat.zero_add]
  refine List.countP_congr ?_
  intro g _
  simp [Function.comp]

/-- Claim C10: `compute_histogram_of_users_with_row_count` unconditionally
reads `input[0]`, so an empty slice panics (out-of-bounds, embedded as
`none`) instead of returning an empty histogram, while every non-empty
input produces a histogram. -/
theorem compute_histogram_empty_input_panics :
    compute_histogram_of_users_with_row_count [] = none ∧
    ∀ (k : Nat) (rest : List Nat),
      (compute_histogram_of_users_with_row_count (k :: rest)).isSome = true :=
  ⟨rfl, fun _ _ => rfl⟩

/-- Claim C9: the `per_user_credit_cap` dispatch of `OprfIpaQuery::execute`
fails (a panic, surfaced to the query driver and embedded as a
`configInvalidCap` error) for every cap outside `{8, 16, 32, 64, 128}`,
and selects saturating-sum bit widths 3, 4, 5, 6, 7 (`BA3`…`BA7`) for the
five allowed caps. -/
theorem oprf_ipa_cap_dispatch (cap : Nat) :
    (cap ∉ ([8, 16, 32, 64, 128] : List Nat) →
      OprfIpaQueryExecuteCapDispatch cap = .error (.configInvalidCap cap)) ∧
    OprfIpaQueryExecuteCapDispatch 8 = .ok 3 ∧
    OprfIpaQueryExecuteCapDispatch 16 = .ok 4 ∧
    OprfIpaQueryExecuteCapDispatch 32 = .ok 5 ∧
    OprfIpaQueryExecuteCapDispatch 64 = .ok 6 ∧
    OprfIpaQueryExecuteCapDispatch 128 = .ok 7 := by
  refine ⟨?_, rfl, rfl, rfl, rfl, rfl⟩
  intro hcap
  simp only [OprfIpaQueryExecuteCapDispatch]
  split
  all_goals first
    | rfl
    | (exfalso; apply hcap; simp_all)

/-- Witness for C9 at the concrete cap 9. -/
theorem oprf_ipa_cap_dispatch_witness :
    (9 : Nat) ∉ ([8, 16, 32, 64, 128] : List Nat) ∧
    OprfIpaQueryExecuteCapDispatch 9 = .error (.configInvalidCap 9) :=
  ⟨by decide, (oprf_ipa_cap_dispatch 9).1 (by decide)⟩

/-- Claim C8: for `k`-bit values `x` and `y`, `integer_sat_add`
reconstructs to the saturated sum — `(x + y) mod 2 ^ k` when the carry out
of the top bit is 0, and the all-ones value `2 ^ k − 1` when it is 1 — and
the carry-out is 1 exactly when `x + y ≥ 2 ^ k`. -/
theorem integer_sat_add_reconstructs (w x y : Nat) (hx : x < 2 ^ w) (hy : y < 2 ^ w) :
    AdditionLowCom.integer_sat_add w x y =
      (if (AdditionLowCom.addition_circuit w x y false).2 then 2 ^ w - 1
       else (x + y) % 2 ^ w) ∧
    ((AdditionLowCom.addition_circuit w x y false).2 = true ↔ 2 ^ w ≤ x + y) := by
  obtain ⟨hval, hiff⟩ := addition_circuit_spec w x y hx hy
  refine ⟨?_, hiff⟩
  simp only [AdditionLowCom.integer_sat_add]
  cases hc : (AdditionLowCom.addition_circuit w x y false).2
  · have he : expand w false = 0 := rfl
    rw [he, Nat.zero_and, Nat.xor_zero, hval]
    simp
  · have he : expand w true = 2 ^ w - 1 := rfl
    rw [he]
    have h1 : (2 ^ w - 1) ^^^ (AdditionLowCom.addition_circuit w x y false).1 < 2 ^ w :=
      Nat.xor_lt_two_pow (by have := Nat.two_pow_pos w; omega) (addition_circuit_lt w x y false)
    rw [land_two_pow_sub_one w _ h1, nat_xor_cancel_left]
    simp

/-- Witness for C8 at `w = 5`, `x = 20`, `y = 15` (a saturating case). -/
theorem integer_sat_add_reconstructs_witness :
    (20 : Nat) < 2 ^ 5 ∧ (15 : Nat) < 2 ^ 5 ∧
    (AdditionLowCom.integer_sat_add 5 20 15 =
      (if (AdditionLowCom.addition_circuit 5 20 15 false).2 then 2 ^ 5 - 1
       else (20 + 15) % 2 ^ 5) ∧
     ((AdditionLowCom.addition_circuit 5 20 15 false).2 = true ↔ 2 ^ 5 ≤ 20 + 15)) :=
  ⟨by decide, by decide, integer_sat_add_reconstructs 5 20 15 (by decide) (by decide)⟩

/-- Claim C7: `evaluate_per_user_attribution_circuit` returns exactly
`N − 1` outputs for a user with `N ≥ 1` rows (none for a single-row
user, one per row after the first). -/
theorem evaluate_per_user_output_count (bkW tvW tsW ssW : Nat) (aws : Option Nat)
    (rows : List PrfShardedIpaInputRow) (h : 1 ≤ rows.length) :
    (evaluate_per_user_attribution_circuit bkW tvW tsW ssW rows aws).length =
      rows.length - 1 := by
  cases rows with
  | nil => simp at h
  | cons first rest =>
    simp only [evaluate_per_user_attribution_circuit]
    by_cases hr : rest = []
    · rw [if_pos hr]
      subst hr
      rfl
    · rw [if_neg hr]
      rw [attribution_fold_length]
      simp

/-- Witness for C7 on a two-row user. -/
theorem evaluate_per_user_output_count_witness :
    1 ≤ ([⟨1, false, 5, 0, 0⟩, ⟨1, true, 0, 3, 0⟩] : List PrfShardedIpaInputRow).length ∧
    (evaluate_per_user_attribution_circuit 5 3 20 5
      [⟨1, false, 5, 0, 0⟩, ⟨1, true, 0, 3, 0⟩] none).length =
      ([⟨1, false, 5, 0, 0⟩, ⟨1, true, 0, 3, 0⟩] : List PrfShardedIpaInputRow).length - 1 :=
  ⟨by decide, evaluate_per_user_output_count 5 3 20 5 none _ (by decide)⟩

/-- Claim C6: across the per-user state updates of
`compute_row_with_previous`, the reconstructed `is_saturated` bit is
monotone — once it is 1 after some prefix of the rows, it stays 1 after
any further rows, because the added term is `overflow AND NOT
previous-is_saturated`. -/
theorem is_saturated_monotone (bkW tvW tsW ssW : Nat) (aws : Option Nat)
    (s : InputsRequiredFromPrevRow) (rows rows' : List PrfShardedIpaInputRow)
    (h : (attribution_fold bkW tvW tsW ssW aws s rows).1.is_saturated = true) :
    (attribution_fold bkW tvW tsW ssW aws s (rows ++ rows')).1.is_saturated = true := by
  rw [attribution_fold_append]
  exact attribution_fold_preserves_saturated bkW tvW tsW ssW aws rows' _ h

/-- Witness for C6: a saturated state stays saturated after one more row. -/
theorem is_saturated_monotone_witness :
    (attribution_fold 5 3 20 5 none ⟨false, 0, 0, true, 0, 0⟩ []).1.is_saturated = true ∧
    (attribution_fold 5 3 20 5 none ⟨false, 0, 0, true, 0, 0⟩
      ([] ++ [⟨1, true, 0, 3, 0⟩])).1.is_saturated = true :=
  ⟨rfl, is_saturated_monotone 5 3 20 5 none ⟨false, 0, 0, true, 0, 0⟩ [] [⟨1, true, 0, 3, 0⟩] rfl⟩

/-- Claim C5: for every row after a user's first, the reconstructed
`capped_attributed_trigger_value` equals the previous row's
`difference_to_cap` when the sum just became saturated on this row, zero
when the new `is_saturated` bit is 1 but `just_saturated` is 0, and the
attributed trigger value otherwise. -/
theorem capped_attributed_trigger_value_cases (bkW tvW tsW ssW : Nat)
    (aws : Option Nat) (s : InputsRequiredFromPrevRow) (row : PrfShardedIpaInputRow)
    (hpd : s.difference_to_cap < 2 ^ tvW) (htv : row.trigger_value < 2 ^ tvW) :
    (compute_row_with_previous bkW tvW tsW ssW s row aws).2.capped_attributed_trigger_value =
      (let atv := zero_out_trigger_value_unless_attributed tvW tsW row.is_trigger_bit
          (or_gate (!row.is_trigger_bit) s.ever_encountered_a_source_event)
          row.trigger_value aws row.timestamp
          (timestamp_of_most_recent_source_event tsW aws row.is_trigger_bit
            s.source_event_timestamp row.timestamp)
       let just := (AdditionSequential.integer_add ssW s.saturating_sum atv).2 &&
          !s.is_saturated
       let satNew := xor s.is_saturated just
       if just then s.difference_to_cap else if satNew then 0 else atv) := by
  have hatv := zero_out_trigger_value_lt tvW tsW row.is_trigger_bit
    (or_gate (!row.is_trigger_bit) s.ever_encountered_a_source_event)
    row.trigger_value aws row.timestamp
    (timestamp_of_most_recent_source_event tsW aws row.is_trigger_bit
      s.source_event_timestamp row.timestamp) htv
  simp only [compute_row_with_previous]
  rw [compute_capped_trigger_value_cases_eq tvW _ _ _ _ hpd hatv]

/-- Witness for C5 at a concrete saturated-state row. -/
theorem capped_attributed_trigger_value_cases_witness :
    ((⟨true, 17, 0, false, 0, 0⟩ : InputsRequiredFromPrevRow).difference_to_cap < 2 ^ 3) ∧
    ((compute_row_with_previous 5 3 20 5 ⟨true, 17, 0, false, 0, 0⟩ ⟨7, true, 0, 7, 0⟩
        none).2.capped_attributed_trigger_value =
      (let atv := zero_out_trigger_value_unless_attributed 3 20
          (⟨7, true, 0, 7, 0⟩ : PrfShardedIpaInputRow).is_trigger_bit
          (or_gate (!(⟨7, true, 0, 7, 0⟩ : PrfShardedIpaInputRow).is_trigger_bit)
            (⟨true, 17, 0, false, 0, 0⟩ : InputsRequiredFromPrevRow).ever_encountered_a_source_event)
          (⟨7, true, 0, 7, 0⟩ : PrfShardedIpaInputRow).trigger_value none
          (⟨7, true, 0, 7, 0⟩ : PrfShardedIpaInputRow).timestamp
          (timestamp_of_most_recent_source_event 20 none
            (⟨7, true, 0, 7, 0⟩ : PrfShardedIpaInputRow).is_trigger_bit
            (⟨true, 17, 0, false, 0, 0⟩ : InputsRequiredFromPrevRow).source_event_timestamp
            (⟨7, true, 0, 7, 0⟩ : PrfShardedIpaInputRow).timestamp)
       let just := (AdditionSequential.integer_add 5
          (⟨true, 17, 0, false, 0, 0⟩ : InputsRequiredFromPrevRow).saturating_sum atv).2 &&
          !(⟨true, 17, 0, false, 0, 0⟩ : InputsRequiredFromPrevRow).is_saturated
       let satNew := xor (⟨true, 17, 0, false, 0, 0⟩ : InputsRequiredFromPrevRow).is_saturated just
       if just then (⟨true, 17, 0, false, 0, 0⟩ : InputsRequiredFromPrevRow).difference_to_cap
       else if satNew then 0 else atv)) :=
  ⟨by decide, capped_attributed_trigger_value_cases 5 3 20 5 none ⟨true, 17, 0, false, 0, 0⟩
    ⟨7, true, 0, 7, 0⟩ (by decide) (by decide)⟩

/-- Claim C4 counterexample: a stream whose (last) user has exactly one
row makes `chunk_rows_by_user` emit a singleton chunk — the claim that
every emitted per-user vector has at least two rows is false. -/
theorem chunk_rows_singleton_counterexample :
    chunk_rows_by_user [] ⟨1, false, 0, 0, 0⟩ = [[⟨1, false, 0, 0, 0⟩]] ∧
    ¬(∀ c ∈ chunk_rows_by_user [] (⟨1, false, 0, 0, 0⟩ : PrfShardedIpaInputRow),
        2 ≤ c.length) := by
  exact ⟨rfl, by decide⟩

/-- Claim C4 (amended): every chunk emitted by `chunk_rows_by_user`
*except possibly the final one* has at least two rows; a single-row user
is dropped unless its rows end the stream, in which case the final chunk
is emitted unconditionally (and later discarded by
`evaluate_per_user_attribution_circuit`). -/
theorem chunk_rows_by_user_all_but_last_ge_two
    (input_stream : List PrfShardedIpaInputRow) (first_row : PrfShardedIpaInputRow)
    (c : List PrfShardedIpaInputRow)
    (hc : c ∈ (chunk_rows_by_user input_stream first_row).dropLast) :
    2 ≤ c.length :=
  chunk_go_dropLast (input_stream.length + 1) input_stream first_row c hc

/-- Witness for the amended C4 on a two-user stream. -/
theorem chunk_rows_by_user_all_but_last_ge_two_witness :
    ([⟨1, false, 0, 0, 0⟩, ⟨1, true, 0, 1, 0⟩] : List PrfShardedIpaInputRow) ∈
      (chunk_rows_by_user [⟨1, true, 0, 1, 0⟩, ⟨2, false, 0, 0, 0⟩]
        ⟨1, false, 0, 0, 0⟩).dropLast ∧
    2 ≤ ([⟨1, false, 0, 0, 0⟩, ⟨1, true, 0, 1, 0⟩] : List PrfShardedIpaInputRow).length :=
  ⟨by decide, chunk_rows_by_user_all_but_last_ge_two
    [⟨1, true, 0, 1, 0⟩, ⟨2, false, 0, 0, 0⟩] ⟨1, false, 0, 0, 0⟩
    [⟨1, false, 0, 0, 0⟩, ⟨1, true, 0, 1, 0⟩] (by decide)⟩

/-- Claim C3 counterexample: on the sorted input of two users with 3 and 7
rows the histogram is `[2, 2, 2, 1, 1, 1, 1]` (its entries sum to the 10
input rows), not `[2, 2, 1, 1, 1, 1, 1]` as the claim states. -/
theorem histogram_claimed_value_counterexample :
    compute_histogram_of_users_with_row_count
        (List.replicate 3 0 ++ List.replicate 7 1) = some [2, 2, 2, 1, 1, 1, 1] ∧
    some ([2, 2, 2, 1, 1, 1, 1] : List Nat) ≠ some ([2, 2, 1, 1, 1, 1, 1] : List Nat) := by
  exact ⟨by decide, by decide⟩

/-- Claim C3 (amended): for a sorted input of exactly two users with
distinct PRFs, one with 3 rows and one with 7 (in either order),
`compute_histogram_of_users_with_row_count` returns
`[2, 2, 2, 1, 1, 1, 1]` — entry `d` counts the users having at least
`d + 1` rows. -/
theorem histogram_two_users_3_and_7_rows (u v : Nat) (huv : u ≠ v) :
    compute_histogram_of_users_with_row_count
        (List.replicate 3 u ++ List.replicate 7 v) = some [2, 2, 2, 1, 1, 1, 1] ∧
    compute_histogram_of_users_with_row_count
        (List.replicate 7 u ++ List.replicate 3 v) = some [2, 2, 2, 1, 1, 1, 1] := by
  constructor
  · have hfl : ([List.replicate 3 u, List.replicate 7 v] : List (List Nat)).flatten =
        List.replicate 3 u ++ List.replicate 7 v := by simp
    have h := compute_histogram_flatten [List.replicate 3 u, List.replicate 7 v]
      (by
        intro g hg
        rcases List.mem_cons.mp hg with rfl | hg2
        · simp
        · obtain rfl := List.mem_singleton.mp hg2
          simp)
      (by
        intro g hg k hk
        rcases List.mem_cons.mp hg with rfl | hg2
        · rw [List.eq_of_mem_replicate hk]
          rfl
        · obtain rfl := List.mem_singleton.mp hg2
          rw [List.eq_of_mem_replicate hk]
          rfl)
      (by
        refine List.chain'_cons.mpr ⟨?_, List.chain'_singleton _⟩
        exact huv)
      (by simp)
    rw [← hfl, h]
    simp only [List.foldl_cons, List.foldl_nil, List.length_replicate]
    decide
  · have hfl : ([List.replicate 7 u, List.replicate 3 v] : List (List Nat)).flatten =
        List.replicate 7 u ++ List.replicate 3 v := by simp
    have h := compute_histogram_flatten [List.replicate 7 u, List.replicate 3 v]
      (by
        intro g hg
        rcases List.mem_cons.mp hg with rfl | hg2
        · simp
        · obtain rfl := List.mem_singleton.mp hg2
          simp)
      (by
        intro g hg k hk
        rcases List.mem_cons.mp hg with rfl | hg2
        · rw [List.eq_of_mem_replicate hk]
          rfl
        · obtain rfl := List.mem_singleton.mp hg2
          rw [List.eq_of_mem_replicate hk]
          rfl)
      (by
        refine List.chain'_cons.mpr ⟨?_, List.chain'_singleton _⟩
        exact huv)
      (by simp)
    rw [← hfl, h]
    simp only [List.foldl_cons, List.foldl_nil, List.length_replicate]
    decide

/-- Witness for the amended C3 at PRFs 0 and 1. -/
theorem histogram_two_users_3_and_7_rows_witness :
    (0 : Nat) ≠ 1 ∧
    compute_histogram_of_users_with_row_count
        (List.replicate 3 0 ++ List.replicate 7 1) = some [2, 2, 2, 1, 1, 1, 1] :=
  ⟨by decide, (histogram_two_users_3_and_7_rows 0 1 (by decide)).1⟩

/-- Claim C2: for every `Row(d)` step on which the scheduler calls
`set_total_records(n)` (with `n = histogram[d]`), the record ids issued
under that step form exactly the contiguous range `[0, n)` in submission
order — every user with at least `d + 1` rows gets a distinct id, with no
gaps and no duplicates — provided the input stream is grouped contiguously
by PRF and the histogram is the one computed from its cleartext PRF
column. -/
theorem record_id_discipline
    (groups : List (List PrfShardedIpaInputRow)) (first : PrfShardedIpaInputRow)
    (rest : List PrfShardedIpaInputRow) (H : List Nat)
    (hG : GroupedBy groups)
    (hjoin : groups.flatten = first :: rest)
    (hH : compute_histogram_of_users_with_row_count
        ((first :: rest).map (fun r => r.prf_of_match_key)) = some H)
    (dn : Nat × Nat) (hdn : dn ∈ set_up_contexts H) :
    ids_issued_at_depth H.length
        ((chunk_rows_by_user rest first).mergeSort (fun a b => decide (b.length ≤ a.length)))
        dn.1 = List.range dn.2 := by
  obtain ⟨hd1, hdlt, hdval⟩ := set_up_contexts_mem H dn hdn
  have hne : groups ≠ [] := by
    intro hemp
    rw [hemp] at hjoin
    simp at hjoin
  rw [← hjoin] at hH
  have hcount := compute_histogram_grouped groups hG hne H hH dn.1
  rw [ids_issued_range H.length dn.1 _ hdlt]
  have hperm := List.mergeSort_perm (chunk_rows_by_user rest first)
    (fun a b => decide (b.length ≤ a.length))
  rw [hperm.countP_eq]
  rw [chunk_rows_by_user_grouped groups hG first rest hjoin]
  rw [keep_chunks_countP dn.1 hd1 groups]
  rw [← hcount, hdval]

/-- Witness for C2: one user with two rows; the `Row(1)` step has
`total_records = 1` and issues exactly the record ids `[0]`. -/
theorem record_id_discipline_witness :
    GroupedBy [[⟨5, false, 1, 0, 0⟩, ⟨5, true, 0, 3, 1⟩]] ∧
    ids_issued_at_depth ([1, 1] : List Nat).length
        ((chunk_rows_by_user [⟨5, true, 0, 3, 1⟩] ⟨5, false, 1, 0, 0⟩).mergeSort
          (fun a b => decide (b.length ≤ a.length)))
        ((1, 1) : Nat × Nat).1 = List.range ((1, 1) : Nat × Nat).2 :=
  ⟨⟨by decide, by decide, List.chain'_singleton _⟩,
    record_id_discipline [[⟨5, false, 1, 0, 0⟩, ⟨5, true, 0, 3, 1⟩]]
      ⟨5, false, 1, 0, 0⟩ [⟨5, true, 0, 3, 1⟩] [1, 1]
      ⟨by decide, by decide, List.chain'_singleton _⟩ rfl (by decide)
      (1, 1) (by decide)⟩

/-- Claim C1 counterexample: on an empty input row sequence (with
`histogram = [0]`, so no panic is hit), `attribute_cap_aggregate` returns
`Ok(vec![])` — the empty vector — and not a vector of `2 ^ |BK| = 32`
zero-shares. -/
theorem attribute_cap_aggregate_empty_counterexample :
    attribute_cap_aggregate 5 3 20 5 4294967291 [] none [0] = some [] ∧
    some ([] : List Nat) ≠ some (List.replicate (2 ^ 5) (0 : Nat)) := by
  exact ⟨rfl, by decide⟩

/-- Claim C1 (amended): for an empty input row sequence (and any histogram
whose entry 0 is 0, so that neither the `histogram[0]` indexing nor the
`input_rows.len() - histogram[0]` subtraction panics),
`attribute_cap_aggregate` returns the empty vector via its early
`Ok(vec![])` return — not a vector of `2 ^ |BK|` zero-shares. -/
theorem attribute_cap_aggregate_empty_returns_empty_vec
    (bkW tvW tsW ssW p : Nat) (aws : Option Nat) (histogram : List Nat)
    (h : histogram.head? = some 0) :
    attribute_cap_aggregate bkW tvW tsW ssW p [] aws histogram = some [] := by
  simp [attribute_cap_aggregate, h]

/-- Witness for the amended C1 with the production field prime and
`BK = BA5`. -/
theorem attribute_cap_aggregate_empty_returns_empty_vec_witness :
    ([0] : List Nat).head? = some 0 ∧
    attribute_cap_aggregate 5 3 20 5 4294967291 [] none [0] = some [] :=
  ⟨rfl, attribute_cap_aggregate_empty_returns_empty_vec 5 3 20 5 4294967291 none [0] rfl⟩
